import Mathlib

/-!
Verification of the gap buffer implemented in `src/buffer.rs` of the `five`
text editor.

The buffer stores bytes in a contiguous array together with two half-open
byte ranges (the Left string and the Right string, separated by the Gap).
Strings are modelled as lists of byte values (`List Nat`, each element a
byte); machine integers (`usize`) are modelled as `Nat`, with the one
wrap-around that matters (`number_of_characters - 1` on an unsigned zero)
modelled explicitly.

Grapheme segmentation (the `unicode_segmentation` crate) is modelled for the
Unicode subset the program exercises: bytes are chunked into UTF-8 code
points by their lead byte, and an extended grapheme cluster is one code
point followed by any run of combining marks (U+0300 - U+036F).  All
navigation functions consume only the start offsets of clusters, exactly as
`grapheme_indices` yields them.
-/

namespace Five

/-- `slice l r xs` models the Rust slice `xs[l..r]`. -/
def slice (l r : Nat) (xs : List Nat) : List Nat :=
  (xs.drop l).take (r - l)

/-- `writeAt d src xs` models `xs[d..d + src.len()].copy_from_slice(src)`:
the bytes of `src` overwrite positions `[d, d + |src|)`. -/
def writeAt (d : Nat) (src xs : List Nat) : List Nat :=
  xs.take d ++ src ++ xs.drop (d + src.length)

/-- `copyWithin s e d xs` models `xs.copy_within(s..e, d)` (memmove
semantics: the source bytes are read before any are overwritten). -/
def copyWithin (s e d : Nat) (xs : List Nat) : List Nat :=
  writeAt d (slice s e xs) xs

/-- Models `Vec::resize(n, v)`. -/
def listResize (n : Nat) (v : Nat) (xs : List Nat) : List Nat :=
  if n ≤ xs.length then xs.take n else xs ++ List.replicate (n - xs.length) v

/-- Models `DoubleEndedIterator::nth_back(k)`: the `k`-th element counted
from the end, 0-indexed. -/
def nthBack (xs : List Nat) (k : Nat) : Option Nat :=
  if k < xs.length then xs.get? (xs.length - 1 - k) else none

/-- Models `usize::next_power_of_two` via a fuelled doubling loop. -/
def np2go : Nat → Nat → Nat → Nat
  | 0, _, p => p
  | f + 1, n, p => if n ≤ p then p else np2go f n (2 * p)

/-- Smallest power of two that is ≥ `n` (and `1` for `n = 0`),
as `usize::next_power_of_two` computes it. -/
def nextPow2 (n : Nat) : Nat := np2go n n 1

/-! ### UTF-8 and grapheme model -/

/-- Byte length of the UTF-8 code point starting with lead byte `b`
(valid input assumed, as `&str` guarantees). -/
def utf8Len (b : Nat) : Nat :=
  if b < 0x80 then 1
  else if b < 0xE0 then 2
  else if b < 0xF0 then 3
  else 4

/-- Fuelled worker chunking a byte list into UTF-8 code points. -/
def cpChunksGo : Nat → List Nat → List (List Nat)
  | 0, _ => []
  | _ + 1, [] => []
  | f + 1, b :: rest =>
    (b :: rest.take (utf8Len b - 1)) :: cpChunksGo f (rest.drop (utf8Len b - 1))

/-- The UTF-8 code points of a byte list, as byte chunks. -/
def codePointChunks (s : List Nat) : List (List Nat) :=
  cpChunksGo s.length s

/-- Scalar value of a two-byte UTF-8 sequence. -/
def decode2 (b c : Nat) : Nat := b % 0x20 * 0x40 + c % 0x40

/-- Whether a code-point chunk is a grapheme-extending combining mark
(U+0300 - U+036F covers the combining marks this program ever sees). -/
def isExtendChunk : List Nat → Bool
  | [b, c] => decide (0x300 ≤ decode2 b c) && decide (decode2 b c ≤ 0x36F)
  | _ => false

/-- Split off the maximal run of extending chunks. -/
def takeExtends : List (List Nat) → List (List Nat) × List (List Nat)
  | [] => ([], [])
  | c :: cs =>
    if isExtendChunk c then
      let p := takeExtends cs
      (c :: p.1, p.2)
    else ([], c :: cs)

/-- Fuelled worker grouping code-point chunks into grapheme clusters. -/
def clustersGo : Nat → List (List Nat) → List (List Nat)
  | 0, _ => []
  | _ + 1, [] => []
  | f + 1, c :: cs =>
    let p := takeExtends cs
    (c ++ p.1.flatten) :: clustersGo f p.2

/-- The extended grapheme clusters of a byte list, as byte chunks. -/
def clusters (s : List Nat) : List (List Nat) :=
  clustersGo (codePointChunks s).length (codePointChunks s)

/-- Start offsets of a list of chunks laid out consecutively from `a`. -/
def offsetsOf (a : Nat) : List (List Nat) → List Nat
  | [] => []
  | c :: cs => a :: offsetsOf (a + c.length) cs

/-- Byte start offsets of the grapheme clusters of `s`: the offsets that
`grapheme_indices(true)` yields. -/
def graphemeStarts (s : List Nat) : List Nat :=
  offsetsOf 0 (clusters s)

/-- Fuelled worker for the `'\n'` offsets of a chunk list. -/
def nlGo (a : Nat) : List (List Nat) → List Nat
  | [] => []
  | c :: cs =>
    if c = [10] then a :: nlGo (a + c.length) cs else nlGo (a + c.length) cs

/-- Byte offsets of the newline characters of `s`: what
`char_indices().filter(|(_, c)| *c == '\n')` yields. -/
def newlineOffsets (s : List Nat) : List Nat :=
  nlGo 0 (codePointChunks s)

/-- Byte offset of the last newline byte, modelling `str::rfind("\n")`. -/
def lastNewline (s : List Nat) : Option Nat :=
  ((s.enum.filter (fun p => p.2 == 10)).getLast?).map (fun p => p.1)

/-- Whether a continuation byte is well-formed. -/
def contByte (b : Nat) : Bool := decide (0x80 ≤ b) && decide (b < 0xC0)

/-- UTF-8 validity of a byte list (structural validity: correct lead and
continuation byte shapes). -/
def utf8Valid : List Nat → Bool
  | [] => true
  | b :: rest =>
    if b < 0x80 then utf8Valid rest
    else if b < 0xC2 then false
    else if b < 0xE0 then
      match rest with
      | c :: r => contByte c && utf8Valid r
      | [] => false
    else if b < 0xF0 then
      match rest with
      | c :: d :: r => contByte c && contByte d && utf8Valid r
      | _ => false
    else if b < 0xF5 then
      match rest with
      | c :: d :: e :: r => contByte c && contByte d && contByte e && utf8Valid r
      | _ => false
    else false

/-! ### The Buffer and its operations, translated from `src/buffer.rs` -/

/-- The gap buffer state: the backing byte vector and the two ranges
`left_string_range` and `right_string_range`. -/
structure Buffer where
  buffer : List Nat
  leftStart : Nat
  leftEnd : Nat
  rightStart : Nat
  rightEnd : Nat
  deriving DecidableEq, Repr

/-- `DEFAULT_INITIAL_CAPACITY` from the source. -/
def DEFAULT_INITIAL_CAPACITY : Nat := 10 * 1024

/-- `Buffer::with_initial_capacity`. -/
def withInitialCapacity (capacity : Nat) : Buffer :=
  { buffer := List.replicate capacity 0
    leftStart := 0
    leftEnd := 0
    rightStart := capacity
    rightEnd := capacity }

/-- `Buffer::new`. -/
def newBuffer : Buffer := withInitialCapacity DEFAULT_INITIAL_CAPACITY

/-- The Left view `&self.buffer[self.left_string_range]`. -/
def leftView (b : Buffer) : List Nat := slice b.leftStart b.leftEnd b.buffer

/-- The Right view `&self.buffer[self.right_string_range]`. -/
def rightView (b : Buffer) : List Nat := slice b.rightStart b.rightEnd b.buffer

/-- `Buffer::get`. -/
def get (b : Buffer) : List Nat × List Nat := (leftView b, rightView b)

/-- The logical content: Left concatenated with Right. -/
def content (b : Buffer) : List Nat := leftView b ++ rightView b

/-- The allocated capacity, `self.buffer.len()`. -/
def capacity (b : Buffer) : Nat := b.buffer.length

/-- `Buffer::gap_size`. -/
def gapSize (b : Buffer) : Nat := b.rightStart - b.leftEnd

/-- `Buffer::grow`. -/
def grow (targetGapSize : Nat) (b : Buffer) : Buffer :=
  let newLength := nextPow2 (b.buffer.length + (targetGapSize - gapSize b))
  let buf1 := listResize newLength 0 b.buffer
  let numRightBytes := b.rightEnd - b.rightStart
  let newRightStart := newLength - numRightBytes
  { b with
    buffer := copyWithin b.rightStart b.rightEnd newRightStart buf1
    rightStart := newRightStart
    rightEnd := newLength }

/-- `Buffer::insert_at_cursor`. -/
def insertAtCursor (characters : List Nat) (b : Buffer) : Buffer :=
  let numBytes := characters.length
  let b1 := if numBytes > gapSize b then grow numBytes b else b
  { b1 with
    buffer := writeAt b1.leftEnd characters b1.buffer
    leftEnd := b1.leftEnd + numBytes }

/-- `Buffer::move_cursor_right_to`. -/
def moveCursorRightTo (targetCursorBufferIndex : Nat) (b : Buffer) : Buffer :=
  let numCopiedBytes := targetCursorBufferIndex - b.rightStart
  let numOriginalRightBytes := b.rightEnd - b.rightStart
  let numRemainingRightBytes := numOriginalRightBytes - numCopiedBytes
  { b with
    buffer := copyWithin b.rightStart targetCursorBufferIndex b.leftEnd b.buffer
    leftEnd := b.leftEnd + numCopiedBytes
    rightStart := b.rightEnd - numRemainingRightBytes }

/-- `Buffer::move_cursor_left_to`. -/
def moveCursorLeftTo (targetCursorBufferIndex : Nat) (b : Buffer) : Buffer :=
  let sourceLen := b.leftEnd - targetCursorBufferIndex
  let destinationCopyStartIndex := b.rightStart - sourceLen
  { b with
    buffer := copyWithin targetCursorBufferIndex b.leftEnd destinationCopyStartIndex b.buffer
    leftEnd := targetCursorBufferIndex
    rightStart := destinationCopyStartIndex }

/-- `Buffer::move_cursor_right`: `grapheme_indices(true).nth(n)` on the
Right view, saturating to the end of Right. -/
def moveCursorRight (numberOfCharacters : Nat) (b : Buffer) : Buffer :=
  let t :=
    match (graphemeStarts (rightView b)).get? numberOfCharacters with
    | some i => b.rightStart + i
    | none => b.rightEnd
  moveCursorRightTo t b

/-- The body of `Buffer::move_cursor_left` after the subtraction
`number_of_characters - 1` has produced the index `k` handed to
`nth_back`. -/
def moveCursorLeftCore (k : Nat) (b : Buffer) : Buffer :=
  let t :=
    match nthBack (graphemeStarts (leftView b)) k with
    | some i => i
    | none => 0
  moveCursorLeftTo t b

/-- `Buffer::move_cursor_left` under checked (debug) arithmetic: the
`number_of_characters - 1` subtraction underflows at `0`, so `0` is outside
the domain (`none` models the panic). -/
def moveCursorLeft (numberOfCharacters : Nat) (b : Buffer) : Option Buffer :=
  if numberOfCharacters = 0 then none
  else some (moveCursorLeftCore (numberOfCharacters - 1) b)

/-- `Buffer::move_cursor_left` under wrapping (release) arithmetic on a
64-bit `usize`. -/
def moveCursorLeftWrap (numberOfCharacters : Nat) (b : Buffer) : Buffer :=
  moveCursorLeftCore ((numberOfCharacters + (2 ^ 64 - 1)) % 2 ^ 64) b

/-- The body of `Buffer::delete_at_cursor` after the subtraction
`number_of_characters - 1` has produced the index `k` handed to
`nth_back`. -/
def deleteCore (k : Nat) (b : Buffer) : Buffer :=
  let t :=
    match nthBack (graphemeStarts (leftView b)) k with
    | some i => i
    | none => 0
  { b with leftEnd := t }

/-- `Buffer::delete_at_cursor` under checked (debug) arithmetic. -/
def deleteAtCursor (numberOfCharacters : Nat) (b : Buffer) : Option Buffer :=
  if numberOfCharacters = 0 then none
  else some (deleteCore (numberOfCharacters - 1) b)

/-- `Buffer::delete_at_cursor` under wrapping (release) arithmetic on a
64-bit `usize`. -/
def deleteAtCursorWrap (numberOfCharacters : Nat) (b : Buffer) : Buffer :=
  deleteCore ((numberOfCharacters + (2 ^ 64 - 1)) % 2 ^ 64) b

/-- `Buffer::delete_all`. -/
def deleteAll (b : Buffer) : Buffer :=
  { b with
    leftStart := 0
    leftEnd := 0
    rightStart := b.buffer.length
    rightEnd := b.buffer.length }

/-- `Buffer::move_cursor` (`isize` modelled as `Int`; a negative offset
always yields a positive count, so the inner subtraction cannot
underflow). -/
def moveCursor (offset : Int) (b : Buffer) : Buffer :=
  if offset < 0 then moveCursorLeftCore ((-offset).toNat - 1) b
  else if offset > 0 then moveCursorRight offset.toNat b
  else b

/-- `Buffer::move_cursor_to_beginning`. -/
def moveCursorToBeginning (b : Buffer) : Buffer :=
  moveCursorLeftTo 0 b

/-- `Buffer::move_cursor_to_end`: the source targets
`right_string_range.end - 1`.  When the Right string is empty (or the
buffer has capacity 0) the `copy_within` call receives a reversed or
out-of-bounds range and panics; `none` models that panic. -/
def moveCursorToEnd (b : Buffer) : Option Buffer :=
  if 1 ≤ b.rightEnd ∧ b.rightStart ≤ b.rightEnd - 1 then
    some (moveCursorRightTo (b.rightEnd - 1) b)
  else none

/-- The extent of `move_cursor_down`'s target line: the source calls
`newline_indices.nth(1)` *after* the first newline was already consumed, so
`rest.get? 1` here is the third newline of the Right view overall (one
newline is skipped), else the end of the Right view. -/
def downTargetLineEnd (right : List Nat) (rest : List Nat) : Nat :=
  match rest.get? 1 with
  | some i => i
  | none => right.length

/-- The current line of the Left view, `left.rfind("\n")` logic of
`move_cursor_down` included. -/
def downCurrentLine (left : List Nat) : List Nat :=
  match lastNewline left with
  | some i => if left.length > 1 then left.drop (i + 1) else []
  | none => left

/-- The byte offset inside the target line chosen by `move_cursor_down`:
the grapheme cluster at the current column, else the *start* of the target
line's last grapheme cluster (`last().map_or(0, ...)`). -/
def downTargetOffset (targetLine : List Nat) (currentColumn : Nat) : Nat :=
  match (graphemeStarts targetLine).get? currentColumn with
  | some i => i
  | none => ((graphemeStarts targetLine).getLast?).getD 0

/-- `Buffer::move_cursor_down`, with its subcomputations named above. -/
def moveCursorDown (b : Buffer) : Buffer :=
  match newlineOffsets (rightView b) with
  | [] => b
  | n0 :: rest =>
    let targetLine := slice (n0 + 1) (downTargetLineEnd (rightView b) rest) (rightView b)
    let currentColumn := (graphemeStarts (downCurrentLine (leftView b))).length
    moveCursorRightTo
      (b.rightStart + downTargetOffset targetLine currentColumn + (n0 + 1)) b

/-- The representation invariant of a buffer: Left starts at 0, the ranges
are ordered, and Right ends at the backing array's length. -/
def Inv (b : Buffer) : Prop :=
  b.leftStart = 0 ∧ b.leftEnd ≤ b.rightStart ∧ b.rightStart ≤ b.rightEnd ∧
    b.rightEnd = b.buffer.length

instance (b : Buffer) : Decidable (Inv b) := by
  unfold Inv; infer_instance

/-! ### List and slice lemmas -/

theorem length_slice (l r : Nat) (xs : List Nat) :
    (slice l r xs).length = min (r - l) (xs.length - l) := by
  simp [slice]

theorem slice_zero (r : Nat) (xs : List Nat) : slice 0 r xs = xs.take r := by
  simp [slice]

theorem slice_same (l : Nat) (xs : List Nat) : slice l l xs = [] := by
  simp [slice]

theorem slice_append_slice {l m r : Nat} (xs : List Nat) (h1 : l ≤ m) (h2 : m ≤ r) :
    slice l m xs ++ slice m r xs = slice l r xs := by
  unfold slice
  have hr : r - l = (m - l) + (r - m) := by omega
  rw [hr, List.take_add]
  congr 2
  rw [List.drop_drop]
  congr 1
  omega

theorem take_append_left {t : Nat} (xs ys : List Nat) (h : t ≤ xs.length) :
    (xs ++ ys).take t = xs.take t := by
  rw [List.take_append_eq_append_take]
  have : t - xs.length = 0 := by omega
  simp [this]

theorem take_append_add (xs ys : List Nat) (k : Nat) :
    (xs ++ ys).take (xs.length + k) = xs ++ ys.take k := by
  rw [List.take_append_eq_append_take]
  have h1 : xs.take (xs.length + k) = xs := List.take_of_length_le (by omega)
  have h2 : xs.length + k - xs.length = k := by omega
  rw [h1, h2]

theorem slice_append_left {l r : Nat} (xs ys : List Nat) (h : r ≤ xs.length) :
    slice l r (xs ++ ys) = slice l r xs := by
  unfold slice
  rw [List.drop_append_eq_append_drop, List.take_append_eq_append_take]
  have h0 : r - l - (List.drop l xs).length = 0 := by
    simp [List.length_drop]; omega
  rw [h0, List.take_zero, List.append_nil]

theorem length_writeAt {d : Nat} (src xs : List Nat) (h : d + src.length ≤ xs.length) :
    (writeAt d src xs).length = xs.length := by
  simp [writeAt]; omega

theorem take_writeAt_left {t d : Nat} (src xs : List Nat) (h1 : t ≤ d)
    (h2 : d ≤ xs.length) : (writeAt d src xs).take t = xs.take t := by
  unfold writeAt
  rw [List.append_assoc, List.take_append_eq_append_take]
  have hlen : (xs.take d).length = d := by simp; omega
  have h0 : t - (xs.take d).length = 0 := by omega
  rw [h0, List.take_zero, List.append_nil, List.take_take, Nat.min_eq_left h1]

theorem take_writeAt_mid {d : Nat} (src xs : List Nat) (h : d ≤ xs.length) :
    (writeAt d src xs).take (d + src.length) = xs.take d ++ src := by
  unfold writeAt
  rw [List.append_assoc]
  have hlen : (xs.take d).length = d := by simp; omega
  have h1 := take_append_add (xs.take d) (src ++ xs.drop (d + src.length)) src.length
  rw [hlen] at h1
  rw [h1]
  congr 1
  rw [take_append_left _ _ (le_refl _), List.take_length]

theorem drop_writeAt_right {t d : Nat} (src xs : List Nat) (h1 : d + src.length ≤ t)
    (h2 : d + src.length ≤ xs.length) : (writeAt d src xs).drop t = xs.drop t := by
  unfold writeAt
  rw [List.append_assoc, List.drop_append_eq_append_drop, List.drop_append_eq_append_drop]
  have hlen : (xs.take d).length = d := by simp; omega
  rw [hlen]
  have e1 : (xs.take d).drop t = [] := List.drop_of_length_le (by simp; omega)
  have e2 : src.drop (t - d) = [] := List.drop_of_length_le (by omega)
  have h3 : d + src.length + (t - d - src.length) = t := by omega
  rw [e1, e2, List.nil_append, List.nil_append, List.drop_drop, h3]

theorem drop_writeAt_at {d : Nat} (src xs : List Nat) (h : d ≤ xs.length) :
    (writeAt d src xs).drop d = src ++ xs.drop (d + src.length) := by
  unfold writeAt
  rw [List.append_assoc, List.drop_append_eq_append_drop]
  have hlen : (xs.take d).length = d := by simp; omega
  rw [hlen]
  have e1 : (xs.take d).drop d = [] := List.drop_of_length_le (by simp)
  simp [e1]

theorem listResize_eq_append {n : Nat} (v : Nat) (xs : List Nat) (h : xs.length ≤ n) :
    listResize n v xs = xs ++ List.replicate (n - xs.length) v := by
  unfold listResize
  by_cases hc : n ≤ xs.length
  · have : n = xs.length := by omega
    subst this
    simp
  · simp [hc]

/-! ### nextPow2 lemmas -/

theorem np2go_spec (f : Nat) : ∀ n p e, p = 2 ^ e → n ≤ p * 2 ^ f →
    (∃ e2, np2go f n p = 2 ^ e2) ∧ n ≤ np2go f n p ∧ p ≤ np2go f n p ∧
      ∀ m, n ≤ 2 ^ m → p ≤ 2 ^ m → np2go f n p ≤ 2 ^ m := by
  induction f with
  | zero =>
    intro n p e hp hf
    simp only [np2go]
    exact ⟨⟨e, hp⟩, by simpa using hf, le_refl _, fun m _ h2 => h2⟩
  | succ f ih =>
    intro n p e hp hf
    simp only [np2go]
    by_cases h : n ≤ p
    · simp only [if_pos h]
      exact ⟨⟨e, hp⟩, h, le_refl _, fun m _ h2 => h2⟩
    · simp only [if_neg h]
      have hp2 : 2 * p = 2 ^ (e + 1) := by rw [hp]; ring
      have hf2 : n ≤ 2 * p * 2 ^ f := by
        calc n ≤ p * 2 ^ (f + 1) := hf
        _ = 2 * p * 2 ^ f := by ring
      obtain ⟨hpow, hle, hple, hmin⟩ := ih n (2 * p) (e + 1) hp2 hf2
      refine ⟨hpow, hle, by omega, fun m hm1 hm2 => ?_⟩
      apply hmin m hm1
      have hlt : 2 ^ e < 2 ^ m := by omega
      have : e < m := (Nat.pow_lt_pow_iff_right (by omega)).mp hlt
      calc 2 * p = 2 ^ (e + 1) := hp2
      _ ≤ 2 ^ m := Nat.pow_le_pow_right (by omega) (by omega)

theorem nextPow2_pow (n : Nat) : ∃ e, nextPow2 n = 2 ^ e :=
  (np2go_spec n n 1 0 (by norm_num) (by simpa using (Nat.lt_two_pow n).le)).1

theorem le_nextPow2 (n : Nat) : n ≤ nextPow2 n :=
  (np2go_spec n n 1 0 (by norm_num) (by simpa using (Nat.lt_two_pow n).le)).2.1

theorem nextPow2_min {n m : Nat} (h : n ≤ 2 ^ m) : nextPow2 n ≤ 2 ^ m :=
  (np2go_spec n n 1 0 (by norm_num)
    (by simpa using (Nat.lt_two_pow n).le)).2.2.2 m h (Nat.one_le_two_pow)

/-! ### Grapheme-model lemmas -/

/-- Total byte length of a list of chunks. -/
def sumLens (cs : List (List Nat)) : Nat := (cs.map List.length).sum

theorem sumLens_eq_length_flatten (cs : List (List Nat)) :
    sumLens cs = cs.flatten.length := by
  induction cs with
  | nil => rfl
  | cons c cs ih =>
    simp only [sumLens, List.map_cons, List.sum_cons, List.flatten_cons,
      List.length_append] at ih ⊢
    omega

theorem cpChunksGo_flatten : ∀ (f : Nat) (s : List Nat), s.length ≤ f →
    (cpChunksGo f s).flatten = s := by
  intro f
  induction f with
  | zero =>
    intro s hs
    have : s = [] := List.eq_nil_of_length_eq_zero (by omega)
    subst this; rfl
  | succ f ih =>
    intro s hs
    match s with
    | [] => rfl
    | b :: rest =>
      simp only [cpChunksGo, List.flatten_cons]
      rw [ih _ (by simp at hs ⊢; omega)]
      simp [List.take_append_drop]

theorem mem_cpChunksGo_ne_nil : ∀ (f : Nat) (s : List Nat) (c : List Nat),
    c ∈ cpChunksGo f s → c ≠ [] := by
  intro f
  induction f with
  | zero => intro s c hc; simp [cpChunksGo] at hc
  | succ f ih =>
    intro s c hc
    match s with
    | [] => simp [cpChunksGo] at hc
    | b :: rest =>
      simp only [cpChunksGo, List.mem_cons] at hc
      rcases hc with h | h
      · subst h; simp
      · exact ih _ _ h

theorem mem_codePointChunks_ne_nil (s : List Nat) :
    ∀ c ∈ codePointChunks s, c ≠ [] := fun c hc =>
  mem_cpChunksGo_ne_nil _ _ _ hc

theorem codePointChunks_flatten (s : List Nat) :
    (codePointChunks s).flatten = s :=
  cpChunksGo_flatten _ _ (le_refl _)

theorem takeExtends_append (cs : List (List Nat)) :
    (takeExtends cs).1 ++ (takeExtends cs).2 = cs := by
  induction cs with
  | nil => rfl
  | cons c cs ih =>
    by_cases h : isExtendChunk c
    · simp [takeExtends, h, ih]
    · simp [takeExtends, h]

theorem takeExtends_snd_length (cs : List (List Nat)) :
    (takeExtends cs).2.length ≤ cs.length := by
  induction cs with
  | nil => simp [takeExtends]
  | cons c cs ih =>
    by_cases h : isExtendChunk c
    · simp [takeExtends, h]; omega
    · simp [takeExtends, h]

theorem mem_takeExtends_snd {cs : List (List Nat)} {c : List Nat}
    (h : c ∈ (takeExtends cs).2) : c ∈ cs := by
  rw [← takeExtends_append cs]
  exact List.mem_append_right _ h

theorem clustersGo_flatten : ∀ (f : Nat) (cs : List (List Nat)), cs.length ≤ f →
    (clustersGo f cs).flatten = cs.flatten := by
  intro f
  induction f with
  | zero =>
    intro cs hcs
    have : cs = [] := List.eq_nil_of_length_eq_zero (by omega)
    subst this; rfl
  | succ f ih =>
    intro cs hcs
    match cs with
    | [] => rfl
    | c :: cs =>
      simp only [clustersGo, List.flatten_cons]
      have hlen : (takeExtends cs).2.length ≤ f := by
        have := takeExtends_snd_length cs
        simp at hcs; omega
      rw [ih _ hlen]
      have happ := takeExtends_append cs
      calc c ++ (takeExtends cs).1.flatten ++ (takeExtends cs).2.flatten
          = c ++ ((takeExtends cs).1 ++ (takeExtends cs).2).flatten := by
            simp [List.flatten_append, List.append_assoc]
        _ = c ++ cs.flatten := by rw [happ]
        _ = (c :: cs).flatten := by simp

theorem clusters_flatten (s : List Nat) : (clusters s).flatten = s := by
  rw [clusters, clustersGo_flatten _ _ (le_refl _), codePointChunks_flatten]

theorem mem_clustersGo_ne_nil : ∀ (f : Nat) (cs : List (List Nat)) (cl : List Nat),
    (∀ c ∈ cs, c ≠ []) → cl ∈ clustersGo f cs → cl ≠ [] := by
  intro f
  induction f with
  | zero => intro cs cl _ hcl; simp [clustersGo] at hcl
  | succ f ih =>
    intro cs cl hne hcl
    match cs with
    | [] => simp [clustersGo] at hcl
    | c :: cs =>
      simp only [clustersGo, List.mem_cons] at hcl
      rcases hcl with h | h
      · subst h
        have : c ≠ [] := hne c (by simp)
        intro hc
        rcases List.append_eq_nil.mp hc with ⟨hc1, _⟩
        exact this hc1
      · exact ih _ _ (fun d hd => hne d (List.mem_cons_of_mem _ (mem_takeExtends_snd hd))) h

theorem mem_clusters_ne_nil (s : List Nat) : ∀ cl ∈ clusters s, cl ≠ [] :=
  fun cl hcl =>
    mem_clustersGo_ne_nil _ _ _ (mem_codePointChunks_ne_nil s) hcl

theorem length_offsetsOf (a : Nat) (cs : List (List Nat)) :
    (offsetsOf a cs).length = cs.length := by
  induction cs generalizing a with
  | nil => rfl
  | cons c cs ih => simp [offsetsOf, ih]

theorem offsetsOf_get? : ∀ (cs : List (List Nat)) (a j : Nat),
    (offsetsOf a cs).get? j =
      if j < cs.length then some (a + sumLens (cs.take j)) else none := by
  intro cs
  induction cs with
  | nil => intro a j; simp [offsetsOf]
  | cons c cs ih =>
    intro a j
    match j with
    | 0 => simp [offsetsOf, sumLens]
    | j + 1 =>
      simp only [offsetsOf, List.get?_cons_succ, ih (a + c.length) j]
      by_cases hj : j < cs.length
      · simp [hj, sumLens, Nat.add_assoc]
      · simp [hj]

theorem mem_offsetsOf {a x : Nat} {cs : List (List Nat)} (h : x ∈ offsetsOf a cs) :
    ∃ j, j < cs.length ∧ x = a + sumLens (cs.take j) := by
  induction cs generalizing a with
  | nil => simp [offsetsOf] at h
  | cons c cs ih =>
    simp only [offsetsOf, List.mem_cons] at h
    rcases h with h | h
    · exact ⟨0, by simp [h, sumLens]⟩
    · obtain ⟨j, hj, hx⟩ := ih h
      exact ⟨j + 1, by simp [hj], by simp [sumLens] at hx ⊢; omega⟩

theorem sumLens_take_lt {j : Nat} {cs : List (List Nat)} (hj : j < cs.length)
    (hne : ∀ c ∈ cs, c ≠ []) : sumLens (cs.take j) < sumLens cs := by
  induction cs generalizing j with
  | nil => simp at hj
  | cons c cs ih =>
    have hc : 0 < c.length :=
      List.length_pos.mpr (hne c (by simp))
    match j with
    | 0 =>
      simp only [List.take_zero]
      simp [sumLens]
      omega
    | j + 1 =>
      have hj' : j < cs.length := by simp at hj; omega
      have := ih hj' (fun d hd => hne d (List.mem_cons_of_mem _ hd))
      simp [sumLens] at this ⊢
      omega

theorem length_graphemeStarts (s : List Nat) :
    (graphemeStarts s).length = (clusters s).length :=
  length_offsetsOf _ _

theorem mem_graphemeStarts_lt {s : List Nat} {x : Nat} (h : x ∈ graphemeStarts s) :
    x < s.length := by
  obtain ⟨j, hj, hx⟩ := mem_offsetsOf h
  have hlt := sumLens_take_lt hj (mem_clusters_ne_nil s)
  have : sumLens (clusters s) = s.length := by
    rw [sumLens_eq_length_flatten, clusters_flatten]
  omega

theorem graphemeStarts_get? {s : List Nat} {j : Nat} (h : j < (clusters s).length) :
    (graphemeStarts s).get? j = some (sumLens ((clusters s).take j)) := by
  rw [graphemeStarts, offsetsOf_get?, if_pos h, Nat.zero_add]

theorem flatten_take_sumLens : ∀ (cs : List (List Nat)) (j : Nat),
    cs.flatten.take (sumLens (cs.take j)) = (cs.take j).flatten := by
  intro cs
  induction cs with
  | nil => intro j; simp
  | cons c cs ih =>
    intro j
    match j with
    | 0 => simp [sumLens]
    | j + 1 =>
      have hs : sumLens ((c :: cs).take (j + 1)) = c.length + sumLens (cs.take j) := by
        simp [sumLens]
      rw [hs, List.flatten_cons, List.take_succ_cons, List.flatten_cons,
        take_append_add c cs.flatten (sumLens (cs.take j)), ih j]

theorem flatten_drop_sumLens : ∀ (cs : List (List Nat)) (j : Nat),
    cs.flatten.drop (sumLens (cs.take j)) = (cs.drop j).flatten := by
  intro cs
  induction cs with
  | nil => intro j; simp
  | cons c cs ih =>
    intro j
    match j with
    | 0 => simp [sumLens]
    | j + 1 =>
      have hs : sumLens ((c :: cs).take (j + 1)) = c.length + sumLens (cs.take j) := by
        simp [sumLens]
      rw [hs, List.flatten_cons, List.drop_succ_cons, List.drop_append_eq_append_drop]
      have e1 : c.drop (c.length + sumLens (cs.take j)) = [] :=
        List.drop_of_length_le (by omega)
      have e2 : c.length + sumLens (cs.take j) - c.length = sumLens (cs.take j) := by omega
      rw [e1, e2, List.nil_append, ih j]

theorem nlGo_mem_lt : ∀ (cs : List (List Nat)) (a x : Nat),
    x ∈ nlGo a cs → x < a + sumLens cs := by
  intro cs
  induction cs with
  | nil => intro a x hx; simp [nlGo] at hx
  | cons c cs ih =>
    intro a x hx
    simp only [nlGo] at hx
    by_cases hc : c = [10]
    · rw [if_pos hc] at hx
      rcases List.mem_cons.mp hx with h | h
      · subst h hc; simp [sumLens]
      · have := ih _ _ h
        simp [sumLens] at this ⊢
        omega
    · rw [if_neg hc] at hx
      have := ih _ _ hx
      simp [sumLens] at this ⊢
      omega

theorem mem_newlineOffsets_lt {s : List Nat} {x : Nat} (h : x ∈ newlineOffsets s) :
    x < s.length := by
  have := nlGo_mem_lt _ _ _ h
  have hs : sumLens (codePointChunks s) = s.length := by
    rw [sumLens_eq_length_flatten, codePointChunks_flatten]
  omega

theorem nlGo_eq_nil (cs : List (List Nat)) (a : Nat)
    (h : ∀ c ∈ cs, c ≠ [10]) : nlGo a cs = [] := by
  induction cs generalizing a with
  | nil => rfl
  | cons c cs ih =>
    simp only [nlGo]
    rw [if_neg (h c (by simp))]
    exact ih _ (fun d hd => h d (List.mem_cons_of_mem _ hd))

theorem newlineOffsets_eq_nil {s : List Nat} (h : 10 ∉ s) : newlineOffsets s = [] := by
  apply nlGo_eq_nil
  intro c hc hc10
  apply h
  rw [← codePointChunks_flatten s]
  exact List.mem_flatten.mpr ⟨c, hc, by simp [hc10]⟩

theorem nthBack_eq_none {xs : List Nat} {k : Nat} :
    nthBack xs k = none ↔ xs.length ≤ k := by
  unfold nthBack
  by_cases h : k < xs.length
  · simp only [if_pos h]
    constructor
    · intro hn
      exfalso
      rw [List.get?_eq_none] at hn
      omega
    · omega
  · simp [h]; omega

theorem nthBack_mem {xs : List Nat} {k x : Nat} (h : nthBack xs k = some x) :
    x ∈ xs := by
  unfold nthBack at h
  by_cases hk : k < xs.length
  · rw [if_pos hk] at h
    exact List.get?_mem h
  · rw [if_neg hk] at h
    exact absurd h (by simp)

theorem nthBack_eq_get? {xs : List Nat} {k : Nat} (h : k < xs.length) :
    nthBack xs k = xs.get? (xs.length - 1 - k) := by
  simp [nthBack, h]

/-! ### Operation lemmas -/

theorem length_leftView (b : Buffer) (h : Inv b) : (leftView b).length = b.leftEnd := by
  obtain ⟨hl0, hlr, hrr, hre⟩ := h
  rw [leftView, length_slice]
  omega

theorem length_rightView (b : Buffer) (h : Inv b) :
    (rightView b).length = b.rightEnd - b.rightStart := by
  obtain ⟨hl0, hlr, hrr, hre⟩ := h
  rw [rightView, length_slice]
  omega

theorem moveCursorRightTo_left (t : Nat) (b : Buffer) (h : Inv b)
    (h1 : b.rightStart ≤ t) (h2 : t ≤ b.rightEnd) :
    leftView (moveCursorRightTo t b) =
      leftView b ++ slice b.rightStart t b.buffer := by
  obtain ⟨hl0, hlr, hrr, hre⟩ := h
  have hmid : (slice b.rightStart t b.buffer).length = t - b.rightStart := by
    rw [length_slice]; omega
  simp only [moveCursorRightTo, leftView, copyWithin]
  rw [hl0, slice_zero, slice_zero]
  calc (writeAt b.leftEnd (slice b.rightStart t b.buffer) b.buffer).take
        (b.leftEnd + (t - b.rightStart))
      = (writeAt b.leftEnd (slice b.rightStart t b.buffer) b.buffer).take
        (b.leftEnd + (slice b.rightStart t b.buffer).length) := by rw [hmid]
    _ = b.buffer.take b.leftEnd ++ slice b.rightStart t b.buffer :=
        take_writeAt_mid _ _ (by omega)

theorem moveCursorRightTo_right (t : Nat) (b : Buffer) (h : Inv b)
    (h1 : b.rightStart ≤ t) (h2 : t ≤ b.rightEnd) :
    rightView (moveCursorRightTo t b) = slice t b.rightEnd b.buffer := by
  obtain ⟨hl0, hlr, hrr, hre⟩ := h
  have hmid : (slice b.rightStart t b.buffer).length = t - b.rightStart := by
    rw [length_slice]; omega
  simp only [moveCursorRightTo, rightView, copyWithin]
  have hrs : b.rightEnd - (b.rightEnd - b.rightStart - (t - b.rightStart)) = t := by
    omega
  rw [hrs]
  have hd : (writeAt b.leftEnd (slice b.rightStart t b.buffer) b.buffer).drop t =
      b.buffer.drop t :=
    drop_writeAt_right _ _ (by omega) (by omega)
  calc slice t b.rightEnd (writeAt b.leftEnd (slice b.rightStart t b.buffer) b.buffer)
      = ((writeAt b.leftEnd (slice b.rightStart t b.buffer) b.buffer).drop t).take
          (b.rightEnd - t) := rfl
    _ = (b.buffer.drop t).take (b.rightEnd - t) := by rw [hd]
    _ = slice t b.rightEnd b.buffer := rfl

theorem moveCursorRightTo_fields (t : Nat) (b : Buffer) :
    (moveCursorRightTo t b).leftStart = b.leftStart ∧
    (moveCursorRightTo t b).leftEnd = b.leftEnd + (t - b.rightStart) ∧
    (moveCursorRightTo t b).rightStart =
      b.rightEnd - (b.rightEnd - b.rightStart - (t - b.rightStart)) ∧
    (moveCursorRightTo t b).rightEnd = b.rightEnd := by
  simp [moveCursorRightTo]

theorem moveCursorRightTo_capacity (t : Nat) (b : Buffer) (h : Inv b)
    (h1 : b.rightStart ≤ t) (h2 : t ≤ b.rightEnd) :
    capacity (moveCursorRightTo t b) = capacity b := by
  obtain ⟨hl0, hlr, hrr, hre⟩ := h
  have hmid : (slice b.rightStart t b.buffer).length = t - b.rightStart := by
    rw [length_slice]; omega
  simp only [moveCursorRightTo, capacity, copyWithin]
  rw [length_writeAt _ _ (by omega)]

theorem moveCursorRightTo_inv (t : Nat) (b : Buffer) (h : Inv b)
    (h1 : b.rightStart ≤ t) (h2 : t ≤ b.rightEnd) :
    Inv (moveCursorRightTo t b) := by
  have hcap := moveCursorRightTo_capacity t b h h1 h2
  obtain ⟨hf1, hf2, hf3, hf4⟩ := moveCursorRightTo_fields t b
  obtain ⟨hl0, hlr, hrr, hre⟩ := h
  refine ⟨by rw [hf1, hl0], ?_, ?_, ?_⟩
  · rw [hf2, hf3]; omega
  · rw [hf3, hf4]; omega
  · rw [hf4, hre]
    exact (by simpa [capacity] using hcap.symm)

theorem moveCursorRightTo_content (t : Nat) (b : Buffer) (h : Inv b)
    (h1 : b.rightStart ≤ t) (h2 : t ≤ b.rightEnd) :
    content (moveCursorRightTo t b) = content b := by
  rw [content, moveCursorRightTo_left t b h h1 h2, moveCursorRightTo_right t b h h1 h2,
    List.append_assoc, slice_append_slice b.buffer h1 h2]
  rfl

theorem moveCursorLeftTo_left (t : Nat) (b : Buffer) (h : Inv b)
    (h2 : t ≤ b.leftEnd) :
    leftView (moveCursorLeftTo t b) = b.buffer.take t := by
  obtain ⟨hl0, hlr, hrr, hre⟩ := h
  have hmid : (slice t b.leftEnd b.buffer).length = b.leftEnd - t := by
    rw [length_slice]; omega
  simp only [moveCursorLeftTo, leftView, copyWithin]
  rw [hl0, slice_zero]
  exact take_writeAt_left _ _ (by omega) (by omega)

theorem moveCursorLeftTo_right (t : Nat) (b : Buffer) (h : Inv b)
    (h2 : t ≤ b.leftEnd) :
    rightView (moveCursorLeftTo t b) =
      slice t b.leftEnd b.buffer ++ rightView b := by
  obtain ⟨hl0, hlr, hrr, hre⟩ := h
  simp only [moveCursorLeftTo, rightView, copyWithin]
  set d := b.rightStart - (b.leftEnd - t) with hddef
  set mid := slice t b.leftEnd b.buffer with hmiddef
  have hmid : mid.length = b.leftEnd - t := by
    rw [hmiddef, length_slice]; omega
  have hda : (writeAt d mid b.buffer).drop d = mid ++ b.buffer.drop (d + mid.length) :=
    drop_writeAt_at _ _ (by omega)
  have hidx : d + mid.length = b.rightStart := by omega
  rw [hidx] at hda
  calc slice d b.rightEnd (writeAt d mid b.buffer)
      = ((writeAt d mid b.buffer).drop d).take (b.rightEnd - d) := rfl
    _ = (mid ++ b.buffer.drop b.rightStart).take (b.rightEnd - d) := by rw [hda]
    _ = (mid ++ b.buffer.drop b.rightStart).take
          (mid.length + (b.rightEnd - b.rightStart)) := by
        rw [show b.rightEnd - d = mid.length + (b.rightEnd - b.rightStart) by omega]
    _ = mid ++ (b.buffer.drop b.rightStart).take (b.rightEnd - b.rightStart) :=
        take_append_add _ _ _
    _ = mid ++ slice b.rightStart b.rightEnd b.buffer := rfl

theorem moveCursorLeftTo_fields (t : Nat) (b : Buffer) :
    (moveCursorLeftTo t b).leftStart = b.leftStart ∧
    (moveCursorLeftTo t b).leftEnd = t ∧
    (moveCursorLeftTo t b).rightStart = b.rightStart - (b.leftEnd - t) ∧
    (moveCursorLeftTo t b).rightEnd = b.rightEnd := by
  simp [moveCursorLeftTo]

theorem moveCursorLeftTo_capacity (t : Nat) (b : Buffer) (h : Inv b)
    (h2 : t ≤ b.leftEnd) :
    capacity (moveCursorLeftTo t b) = capacity b := by
  obtain ⟨hl0, hlr, hrr, hre⟩ := h
  have hmid : (slice t b.leftEnd b.buffer).length = b.leftEnd - t := by
    rw [length_slice]; omega
  simp only [moveCursorLeftTo, capacity, copyWithin]
  rw [length_writeAt _ _ (by omega)]

theorem moveCursorLeftTo_inv (t : Nat) (b : Buffer) (h : Inv b)
    (h2 : t ≤ b.leftEnd) :
    Inv (moveCursorLeftTo t b) := by
  have hcap := moveCursorLeftTo_capacity t b h h2
  obtain ⟨hf1, hf2, hf3, hf4⟩ := moveCursorLeftTo_fields t b
  obtain ⟨hl0, hlr, hrr, hre⟩ := h
  refine ⟨by rw [hf1, hl0], ?_, ?_, ?_⟩
  · rw [hf2, hf3]; omega
  · rw [hf3, hf4]; omega
  · rw [hf4, hre]
    exact (by simpa [capacity] using hcap.symm)

theorem moveCursorLeftTo_content (t : Nat) (b : Buffer) (h : Inv b)
    (h2 : t ≤ b.leftEnd) :
    content (moveCursorLeftTo t b) = content b := by
  rw [content, moveCursorLeftTo_left t b h h2, moveCursorLeftTo_right t b h h2,
    ← List.append_assoc]
  have h0 : Inv b := h
  obtain ⟨hl0, hlr, hrr, hre⟩ := h
  rw [content, leftView, hl0, slice_zero]
  congr 1
  have : b.buffer.take t = slice 0 t b.buffer := (slice_zero t b.buffer).symm
  rw [this, slice_append_slice b.buffer (by omega) h2, slice_zero]

theorem grow_fields (k : Nat) (b : Buffer) :
    (grow k b).leftStart = b.leftStart ∧
    (grow k b).leftEnd = b.leftEnd ∧
    (grow k b).rightStart =
      nextPow2 (b.buffer.length + (k - gapSize b)) - (b.rightEnd - b.rightStart) ∧
    (grow k b).rightEnd = nextPow2 (b.buffer.length + (k - gapSize b)) := by
  simp [grow]

theorem grow_left (k : Nat) (b : Buffer) (h : Inv b) :
    leftView (grow k b) = leftView b := by
  obtain ⟨hl0, hlr, hrr, hre⟩ := h
  simp only [grow, leftView, copyWithin]
  set NL := nextPow2 (b.buffer.length + (k - gapSize b)) with hNL
  have hnl : b.buffer.length ≤ NL := le_trans (Nat.le_add_right _ _) (le_nextPow2 _)
  have hres : listResize NL 0 b.buffer =
      b.buffer ++ List.replicate (NL - b.buffer.length) 0 :=
    listResize_eq_append _ _ hnl
  have hlen1 : (listResize NL 0 b.buffer).length = NL := by
    rw [hres, List.length_append, List.length_replicate]; omega
  have hmid : slice b.rightStart b.rightEnd (listResize NL 0 b.buffer) =
      slice b.rightStart b.rightEnd b.buffer := by
    rw [hres]; exact slice_append_left _ _ (by omega)
  have hmidlen : (slice b.rightStart b.rightEnd b.buffer).length =
      b.rightEnd - b.rightStart := by
    rw [length_slice]; omega
  rw [hl0, slice_zero, slice_zero, hmid,
    take_writeAt_left _ _ (by omega) (by omega), hres,
    take_append_left _ _ (by omega)]

theorem grow_right (k : Nat) (b : Buffer) (h : Inv b) :
    rightView (grow k b) = rightView b := by
  obtain ⟨hl0, hlr, hrr, hre⟩ := h
  simp only [grow, rightView, copyWithin]
  set NL := nextPow2 (b.buffer.length + (k - gapSize b)) with hNL
  have hnl : b.buffer.length ≤ NL := le_trans (Nat.le_add_right _ _) (le_nextPow2 _)
  have hres : listResize NL 0 b.buffer =
      b.buffer ++ List.replicate (NL - b.buffer.length) 0 :=
    listResize_eq_append _ _ hnl
  have hlen1 : (listResize NL 0 b.buffer).length = NL := by
    rw [hres, List.length_append, List.length_replicate]; omega
  have hmid : slice b.rightStart b.rightEnd (listResize NL 0 b.buffer) =
      slice b.rightStart b.rightEnd b.buffer := by
    rw [hres]; exact slice_append_left _ _ (by omega)
  have hmidlen : (slice b.rightStart b.rightEnd b.buffer).length =
      b.rightEnd - b.rightStart := by
    rw [length_slice]; omega
  rw [hmid]
  set RS := NL - (b.rightEnd - b.rightStart) with hRS
  set mid := slice b.rightStart b.rightEnd b.buffer with hmd
  have hda : (writeAt RS mid (listResize NL 0 b.buffer)).drop RS =
      mid ++ (listResize NL 0 b.buffer).drop (RS + mid.length) :=
    drop_writeAt_at _ _ (by omega)
  calc slice RS NL (writeAt RS mid (listResize NL 0 b.buffer))
      = ((writeAt RS mid (listResize NL 0 b.buffer)).drop RS).take (NL - RS) := rfl
    _ = (mid ++ (listResize NL 0 b.buffer).drop (RS + mid.length)).take (NL - RS) := by
        rw [hda]
    _ = (mid ++ (listResize NL 0 b.buffer).drop (RS + mid.length)).take mid.length := by
        rw [show NL - RS = mid.length by omega]
    _ = mid := by rw [take_append_left _ _ (le_refl _), List.take_length]

theorem grow_capacity (k : Nat) (b : Buffer) (h : Inv b) :
    capacity (grow k b) = nextPow2 (capacity b + (k - gapSize b)) := by
  obtain ⟨hl0, hlr, hrr, hre⟩ := h
  simp only [grow, capacity, copyWithin]
  set NL := nextPow2 (b.buffer.length + (k - gapSize b)) with hNL
  have hnl : b.buffer.length ≤ NL := le_trans (Nat.le_add_right _ _) (le_nextPow2 _)
  have hres : listResize NL 0 b.buffer =
      b.buffer ++ List.replicate (NL - b.buffer.length) 0 :=
    listResize_eq_append _ _ hnl
  have hlen1 : (listResize NL 0 b.buffer).length = NL := by
    rw [hres, List.length_append, List.length_replicate]; omega
  have hmidlen : (slice b.rightStart b.rightEnd (listResize NL 0 b.buffer)).length =
      b.rightEnd - b.rightStart := by
    rw [length_slice]; omega
  rw [length_writeAt _ _ (by omega), hlen1]

theorem grow_capacity_le (k : Nat) (b : Buffer) (h : Inv b) :
    capacity b ≤ capacity (grow k b) := by
  rw [grow_capacity k b h]
  exact le_trans (Nat.le_add_right _ _) (le_nextPow2 _)

theorem grow_inv (k : Nat) (b : Buffer) (h : Inv b) : Inv (grow k b) := by
  have hcap := grow_capacity k b h
  obtain ⟨hf1, hf2, hf3, hf4⟩ := grow_fields k b
  obtain ⟨hl0, hlr, hrr, hre⟩ := h
  have hnl : b.buffer.length ≤ nextPow2 (b.buffer.length + (k - gapSize b)) :=
    le_trans (Nat.le_add_right _ _) (le_nextPow2 _)
  refine ⟨by rw [hf1, hl0], ?_, ?_, ?_⟩
  · rw [hf2, hf3]; omega
  · rw [hf3, hf4]; omega
  · rw [hf4]
    have : capacity (grow k b) = (grow k b).buffer.length := rfl
    rw [this] at hcap
    rw [hcap]
    rfl

theorem grow_gap (k : Nat) (b : Buffer) (h : Inv b) (hk : gapSize b < k) :
    k ≤ gapSize (grow k b) := by
  obtain ⟨hf1, hf2, hf3, hf4⟩ := grow_fields k b
  obtain ⟨hl0, hlr, hrr, hre⟩ := h
  have hgs : gapSize b = b.rightStart - b.leftEnd := rfl
  have hnl : b.buffer.length + (k - gapSize b) ≤
      nextPow2 (b.buffer.length + (k - gapSize b)) := le_nextPow2 _
  have : gapSize (grow k b) = (grow k b).rightStart - (grow k b).leftEnd := rfl
  rw [this, hf2, hf3]
  omega

theorem grow_content (k : Nat) (b : Buffer) (h : Inv b) :
    content (grow k b) = content b := by
  rw [content, content, grow_left k b h, grow_right k b h]

/-- The final write step of `insert_at_cursor`, as a record update. -/
def writeStep (cs : List Nat) (b : Buffer) : Buffer :=
  { b with
    buffer := writeAt b.leftEnd cs b.buffer
    leftEnd := b.leftEnd + cs.length }

theorem insert_eq_fit (cs : List Nat) (b : Buffer) (hfit : cs.length ≤ gapSize b) :
    insertAtCursor cs b = writeStep cs b := by
  simp [insertAtCursor, writeStep, Nat.not_lt.mpr hfit]

theorem insert_eq_grow (cs : List Nat) (b : Buffer) (hbig : gapSize b < cs.length) :
    insertAtCursor cs b = writeStep cs (grow cs.length b) := by
  simp [insertAtCursor, writeStep, hbig]

theorem writeStep_left (cs : List Nat) (b : Buffer) (h : Inv b)
    (hfit : cs.length ≤ gapSize b) :
    leftView (writeStep cs b) = leftView b ++ cs := by
  obtain ⟨hl0, hlr, hrr, hre⟩ := h
  have hgs : gapSize b = b.rightStart - b.leftEnd := rfl
  show slice b.leftStart (b.leftEnd + cs.length) (writeAt b.leftEnd cs b.buffer) =
    leftView b ++ cs
  rw [hl0, slice_zero, take_writeAt_mid _ _ (by omega), leftView, hl0, slice_zero]

theorem writeStep_right (cs : List Nat) (b : Buffer) (h : Inv b)
    (hfit : cs.length ≤ gapSize b) :
    rightView (writeStep cs b) = rightView b := by
  obtain ⟨hl0, hlr, hrr, hre⟩ := h
  have hgs : gapSize b = b.rightStart - b.leftEnd := rfl
  show slice b.rightStart b.rightEnd (writeAt b.leftEnd cs b.buffer) = rightView b
  calc slice b.rightStart b.rightEnd (writeAt b.leftEnd cs b.buffer)
      = ((writeAt b.leftEnd cs b.buffer).drop b.rightStart).take
          (b.rightEnd - b.rightStart) := rfl
    _ = (b.buffer.drop b.rightStart).take (b.rightEnd - b.rightStart) := by
        rw [drop_writeAt_right _ _ (by omega) (by omega)]
    _ = rightView b := rfl

theorem writeStep_capacity (cs : List Nat) (b : Buffer) (h : Inv b)
    (hfit : cs.length ≤ gapSize b) :
    capacity (writeStep cs b) = capacity b := by
  obtain ⟨hl0, hlr, hrr, hre⟩ := h
  have hgs : gapSize b = b.rightStart - b.leftEnd := rfl
  show (writeAt b.leftEnd cs b.buffer).length = b.buffer.length
  rw [length_writeAt _ _ (by omega)]

theorem writeStep_inv (cs : List Nat) (b : Buffer) (h : Inv b)
    (hfit : cs.length ≤ gapSize b) :
    Inv (writeStep cs b) := by
  have hcap := writeStep_capacity cs b h hfit
  obtain ⟨hl0, hlr, hrr, hre⟩ := h
  have hgs : gapSize b = b.rightStart - b.leftEnd := rfl
  refine ⟨hl0, by show b.leftEnd + cs.length ≤ b.rightStart; omega,
    by show b.rightStart ≤ b.rightEnd; omega, ?_⟩
  show b.rightEnd = (writeAt b.leftEnd cs b.buffer).length
  rw [length_writeAt _ _ (by omega)]
  exact hre

theorem insertAtCursor_left (cs : List Nat) (b : Buffer) (h : Inv b) :
    leftView (insertAtCursor cs b) = leftView b ++ cs := by
  by_cases hfit : cs.length ≤ gapSize b
  · rw [insert_eq_fit cs b hfit, writeStep_left cs b h hfit]
  · push_neg at hfit
    rw [insert_eq_grow cs b hfit,
      writeStep_left cs (grow cs.length b) (grow_inv _ b h)
        (grow_gap _ b h hfit), grow_left _ b h]

theorem insertAtCursor_right (cs : List Nat) (b : Buffer) (h : Inv b) :
    rightView (insertAtCursor cs b) = rightView b := by
  by_cases hfit : cs.length ≤ gapSize b
  · rw [insert_eq_fit cs b hfit, writeStep_right cs b h hfit]
  · push_neg at hfit
    rw [insert_eq_grow cs b hfit,
      writeStep_right cs (grow cs.length b) (grow_inv _ b h)
        (grow_gap _ b h hfit), grow_right _ b h]

theorem insertAtCursor_inv (cs : List Nat) (b : Buffer) (h : Inv b) :
    Inv (insertAtCursor cs b) := by
  by_cases hfit : cs.length ≤ gapSize b
  · rw [insert_eq_fit cs b hfit]
    exact writeStep_inv cs b h hfit
  · push_neg at hfit
    rw [insert_eq_grow cs b hfit]
    exact writeStep_inv cs (grow cs.length b) (grow_inv _ b h) (grow_gap _ b h hfit)

theorem insertAtCursor_capacity_le (cs : List Nat) (b : Buffer) (h : Inv b) :
    capacity b ≤ capacity (insertAtCursor cs b) := by
  by_cases hfit : cs.length ≤ gapSize b
  · rw [insert_eq_fit cs b hfit, writeStep_capacity cs b h hfit]
  · push_neg at hfit
    rw [insert_eq_grow cs b hfit,
      writeStep_capacity cs (grow cs.length b) (grow_inv _ b h)
        (grow_gap _ b h hfit)]
    exact grow_capacity_le _ b h

theorem insertAtCursor_leftEnd (cs : List Nat) (b : Buffer) :
    (insertAtCursor cs b).leftEnd = b.leftEnd + cs.length := by
  by_cases hfit : cs.length ≤ gapSize b
  · rw [insert_eq_fit cs b hfit]; rfl
  · push_neg at hfit
    rw [insert_eq_grow cs b hfit]
    show (grow cs.length b).leftEnd + cs.length = b.leftEnd + cs.length
    rw [(grow_fields cs.length b).2.1]

/-! ### Per-operation content and capacity preservation -/

theorem moveCursorRight_spec (n : Nat) (b : Buffer) (h : Inv b) :
    content (moveCursorRight n b) = content b ∧
    capacity (moveCursorRight n b) = capacity b ∧
    Inv (moveCursorRight n b) := by
  have hrv := length_rightView b h
  have h' := h
  obtain ⟨hl0, hlr, hrr, hre⟩ := h'
  cases heq : (graphemeStarts (rightView b)).get? n with
  | some i =>
    have hi : i < (rightView b).length := mem_graphemeStarts_lt (List.get?_mem heq)
    rw [List.get?_eq_getElem?] at heq
    have he : moveCursorRight n b = moveCursorRightTo (b.rightStart + i) b := by
      simp [moveCursorRight, heq]
    rw [he]
    exact ⟨moveCursorRightTo_content _ b h (by omega) (by omega),
      moveCursorRightTo_capacity _ b h (by omega) (by omega),
      moveCursorRightTo_inv _ b h (by omega) (by omega)⟩
  | none =>
    rw [List.get?_eq_getElem?] at heq
    have he : moveCursorRight n b = moveCursorRightTo b.rightEnd b := by
      simp [moveCursorRight, heq]
    rw [he]
    exact ⟨moveCursorRightTo_content _ b h (by omega) (by omega),
      moveCursorRightTo_capacity _ b h (by omega) (by omega),
      moveCursorRightTo_inv _ b h (by omega) (by omega)⟩

theorem moveCursorLeftCore_spec (k : Nat) (b : Buffer) (h : Inv b) :
    content (moveCursorLeftCore k b) = content b ∧
    capacity (moveCursorLeftCore k b) = capacity b ∧
    Inv (moveCursorLeftCore k b) := by
  have hlv := length_leftView b h
  have h' := h
  obtain ⟨hl0, hlr, hrr, hre⟩ := h'
  cases heq : nthBack (graphemeStarts (leftView b)) k with
  | some i =>
    have hi : i < (leftView b).length := mem_graphemeStarts_lt (nthBack_mem heq)
    have he : moveCursorLeftCore k b = moveCursorLeftTo i b := by
      simp [moveCursorLeftCore, heq]
    rw [he]
    exact ⟨moveCursorLeftTo_content _ b h (by omega),
      moveCursorLeftTo_capacity _ b h (by omega),
      moveCursorLeftTo_inv _ b h (by omega)⟩
  | none =>
    have he : moveCursorLeftCore k b = moveCursorLeftTo 0 b := by
      simp [moveCursorLeftCore, heq]
    rw [he]
    exact ⟨moveCursorLeftTo_content _ b h (by omega),
      moveCursorLeftTo_capacity _ b h (by omega),
      moveCursorLeftTo_inv _ b h (by omega)⟩

theorem downTargetOffset_cases (tl : List Nat) (col : Nat) :
    downTargetOffset tl col = 0 ∨ downTargetOffset tl col ∈ graphemeStarts tl := by
  unfold downTargetOffset
  cases hOff : (graphemeStarts tl).get? col with
  | some i => exact Or.inr (List.get?_mem hOff)
  | none =>
    cases hLast : (graphemeStarts tl).getLast? with
    | some j =>
      right
      simp only [Option.getD_some]
      exact List.mem_of_mem_getLast? (by rw [hLast]; rfl)
    | none => left; simp

theorem moveCursorDown_spec (b : Buffer) (h : Inv b) :
    content (moveCursorDown b) = content b ∧
    capacity (moveCursorDown b) = capacity b ∧
    Inv (moveCursorDown b) := by
  have hrv := length_rightView b h
  have h' := h
  obtain ⟨hl0, hlr, hrr, hre⟩ := h'
  cases hnl : newlineOffsets (rightView b) with
  | nil =>
    have he : moveCursorDown b = b := by simp [moveCursorDown, hnl]
    rw [he]
    exact ⟨rfl, rfl, h⟩
  | cons n0 rest =>
    have hn0 : n0 < (rightView b).length :=
      mem_newlineOffsets_lt (by rw [hnl]; simp)
    set tl := slice (n0 + 1) (downTargetLineEnd (rightView b) rest) (rightView b) with htl
    have htllen : tl.length ≤ (rightView b).length - (n0 + 1) := by
      rw [htl, length_slice, length_rightView b h]
      omega
    have hoff : downTargetOffset tl ((graphemeStarts (downCurrentLine (leftView b))).length)
        + (n0 + 1) ≤ (rightView b).length := by
      rcases downTargetOffset_cases tl
          ((graphemeStarts (downCurrentLine (leftView b))).length) with h0 | hmem
      · omega
      · have := mem_graphemeStarts_lt hmem
        omega
    have he : moveCursorDown b = moveCursorRightTo
        (b.rightStart + downTargetOffset tl
          ((graphemeStarts (downCurrentLine (leftView b))).length) + (n0 + 1)) b := by
      simp [moveCursorDown, hnl]
    rw [he]
    exact ⟨moveCursorRightTo_content _ b h (by omega) (by omega),
      moveCursorRightTo_capacity _ b h (by omega) (by omega),
      moveCursorRightTo_inv _ b h (by omega) (by omega)⟩

theorem moveCursorToBeginning_spec (b : Buffer) (h : Inv b) :
    content (moveCursorToBeginning b) = content b ∧
    capacity (moveCursorToBeginning b) = capacity b ∧
    Inv (moveCursorToBeginning b) := by
  have h' := h
  obtain ⟨hl0, hlr, hrr, hre⟩ := h'
  exact ⟨moveCursorLeftTo_content 0 b h (by omega),
    moveCursorLeftTo_capacity 0 b h (by omega),
    moveCursorLeftTo_inv 0 b h (by omega)⟩

theorem moveCursorToEnd_spec (b b' : Buffer) (h : Inv b)
    (hm : moveCursorToEnd b = some b') :
    content b' = content b ∧ capacity b' = capacity b := by
  have h' := h
  obtain ⟨hl0, hlr, hrr, hre⟩ := h'
  unfold moveCursorToEnd at hm
  by_cases hc : 1 ≤ b.rightEnd ∧ b.rightStart ≤ b.rightEnd - 1
  · rw [if_pos hc] at hm
    obtain ⟨hc1, hc2⟩ := hc
    have hb' : b' = moveCursorRightTo (b.rightEnd - 1) b := (Option.some_inj.mp hm).symm
    rw [hb']
    exact ⟨moveCursorRightTo_content _ b h (by omega) (by omega),
      moveCursorRightTo_capacity _ b h (by omega) (by omega)⟩
  · rw [if_neg hc] at hm
    exact absurd hm (by simp)

theorem moveCursor_spec (off : Int) (b : Buffer) (h : Inv b) :
    content (moveCursor off b) = content b ∧
    capacity (moveCursor off b) = capacity b ∧
    Inv (moveCursor off b) := by
  unfold moveCursor
  by_cases hneg : off < 0
  · rw [if_pos hneg]
    exact moveCursorLeftCore_spec _ b h
  · rw [if_neg hneg]
    by_cases hpos : off > 0
    · rw [if_pos hpos]
      exact moveCursorRight_spec _ b h
    · rw [if_neg hpos]
      exact ⟨rfl, rfl, h⟩

theorem moveCursorLeft_spec (n : Nat) (b b' : Buffer) (h : Inv b)
    (hm : moveCursorLeft n b = some b') :
    content b' = content b ∧ capacity b' = capacity b := by
  unfold moveCursorLeft at hm
  by_cases hn : n = 0
  · rw [if_pos hn] at hm
    exact absurd hm (by simp)
  · rw [if_neg hn] at hm
    have hb' : b' = moveCursorLeftCore (n - 1) b := (Option.some_inj.mp hm).symm
    rw [hb']
    exact ⟨(moveCursorLeftCore_spec _ b h).1, (moveCursorLeftCore_spec _ b h).2.1⟩

theorem deleteAtCursor_capacity (n : Nat) (b b' : Buffer)
    (hm : deleteAtCursor n b = some b') : capacity b' = capacity b := by
  unfold deleteAtCursor at hm
  by_cases hn : n = 0
  · rw [if_pos hn] at hm
    exact absurd hm (by simp)
  · rw [if_neg hn] at hm
    have hb' : b' = deleteCore (n - 1) b := (Option.some_inj.mp hm).symm
    rw [hb']
    rfl

/-! ### Concrete example buffers used by the claim witnesses -/

/-- Capacity-8 buffer holding the bytes of `"ab\nc"`, cursor at the end. -/
def exBufA : Buffer := insertAtCursor [97, 98, 10, 99] (withInitialCapacity 8)

/-- Capacity-8 buffer holding `"ab"` with the cursor at the beginning. -/
def exBufB : Buffer := moveCursorToBeginning (insertAtCursor [97, 98] (withInitialCapacity 8))

/-- Capacity-8 buffer holding `"12345"`, cursor at the end (gap of 3 bytes). -/
def exBufC : Buffer := insertAtCursor [49, 50, 51, 52, 53] (withInitialCapacity 8)

/-- UTF-8 bytes of `"Let's move the cursor "` followed by the smiling emoji
U+1F60E (a single four-byte code point). -/
def glyphStr : List Nat :=
  [76, 101, 116, 39, 115, 32, 109, 111, 118, 101, 32, 116, 104, 101, 32,
   99, 117, 114, 115, 111, 114, 32, 240, 159, 152, 142]

/-- The first 22 bytes of `glyphStr` (everything before the emoji). -/
def glyphLeft : List Nat :=
  [76, 101, 116, 39, 115, 32, 109, 111, 118, 101, 32, 116, 104, 101, 32,
   99, 117, 114, 115, 111, 114, 32]

/-- The UTF-8 bytes of the emoji U+1F60E. -/
def glyphRight : List Nat := [240, 159, 152, 142]

/-! ### The claims -/

/-- C1: the logical content (`left ++ right` of `get()`) is preserved by
every cursor-relocation operation — `move_cursor`, `move_cursor_left`,
`move_cursor_right`, `move_cursor_to_beginning`, `move_cursor_to_end`,
`move_cursor_down` — and by gap growth (partial operations preserve it
whenever they return). -/
theorem claim1_content_preserved_by_relocation_and_growth (b : Buffer)
    (off : Int) (n k : Nat) (h : Inv b) :
    content (moveCursor off b) = content b ∧
    (∀ b', moveCursorLeft n b = some b' → content b' = content b) ∧
    content (moveCursorRight n b) = content b ∧
    content (moveCursorToBeginning b) = content b ∧
    (∀ b', moveCursorToEnd b = some b' → content b' = content b) ∧
    content (moveCursorDown b) = content b ∧
    content (grow k b) = content b :=
  ⟨(moveCursor_spec off b h).1,
   fun b' hm => (moveCursorLeft_spec n b b' h hm).1,
   (moveCursorRight_spec n b h).1,
   (moveCursorToBeginning_spec b h).1,
   fun b' hm => (moveCursorToEnd_spec b b' h hm).1,
   (moveCursorDown_spec b h).1,
   grow_content k b h⟩

/-- Witness for C1 at the concrete buffer `exBufA`. -/
theorem claim1_witness :
    Inv exBufA ∧
    (content (moveCursor (-1) exBufA) = content exBufA ∧
     (∀ b', moveCursorLeft 2 exBufA = some b' → content b' = content exBufA) ∧
     content (moveCursorRight 2 exBufA) = content exBufA ∧
     content (moveCursorToBeginning exBufA) = content exBufA ∧
     (∀ b', moveCursorToEnd exBufA = some b' → content b' = content exBufA) ∧
     content (moveCursorDown exBufA) = content exBufA ∧
     content (grow 20 exBufA) = content exBufA) :=
  ⟨by decide,
   claim1_content_preserved_by_relocation_and_growth exBufA (-1 : Int) 2 20 (by decide)⟩

/-- C3: inserting any valid-UTF-8 byte string `s` into a freshly
constructed buffer yields `get() = (s, "")`; in general insertion appends
exactly the inserted bytes to the Left view, leaves the Right view
unchanged, and leaves the cursor (`left.end`) immediately after the
inserted text. -/
theorem claim3_insert_roundtrip (c : Nat) (s t : List Nat) (b : Buffer)
    (hs : utf8Valid s = true) (h : Inv b) :
    get (insertAtCursor s (withInitialCapacity c)) = (s, []) ∧
    leftView (insertAtCursor t b) = leftView b ++ t ∧
    rightView (insertAtCursor t b) = rightView b ∧
    (insertAtCursor t b).leftEnd = (leftView b).length + t.length := by
  have hfresh : Inv (withInitialCapacity c) := by
    refine ⟨rfl, by simp [withInitialCapacity], by simp [withInitialCapacity], ?_⟩
    simp [withInitialCapacity]
  have hfl : leftView (withInitialCapacity c) = [] := by
    simp [leftView, withInitialCapacity, slice]
  have hfr : rightView (withInitialCapacity c) = [] := slice_same _ _
  refine ⟨?_, insertAtCursor_left t b h, insertAtCursor_right t b h, ?_⟩
  · rw [get, insertAtCursor_left s _ hfresh, insertAtCursor_right s _ hfresh, hfl, hfr]
    simp
  · rw [insertAtCursor_leftEnd, length_leftView b h]

/-- Witness for C3: inserting the bytes of `"é"` into a fresh capacity-8
buffer, and a newline byte into `exBufA`. -/
theorem claim3_witness :
    (utf8Valid [195, 169] = true ∧ Inv exBufA) ∧
    (get (insertAtCursor [195, 169] (withInitialCapacity 8)) = ([195, 169], []) ∧
     leftView (insertAtCursor [10] exBufA) = leftView exBufA ++ [10] ∧
     rightView (insertAtCursor [10] exBufA) = rightView exBufA ∧
     (insertAtCursor [10] exBufA).leftEnd = (leftView exBufA).length + [10].length) :=
  ⟨⟨by decide, by decide⟩,
   claim3_insert_roundtrip 8 [195, 169] [10] exBufA (by decide) (by decide)⟩

/-- C4: an insertion larger than the current gap still succeeds — the new
content is the old content with the text at the cursor — the resulting
capacity is the smallest power of two at least the previous content size
plus the inserted length, and capacity never decreases across any
operation. -/
theorem claim4_growth_correctness (b : Buffer) (t s : List Nat) (n : Nat)
    (off : Int) (h : Inv b) (hbig : gapSize b < t.length) :
    content (insertAtCursor t b) = leftView b ++ t ++ rightView b ∧
    capacity (insertAtCursor t b) = nextPow2 ((content b).length + t.length) ∧
    (∃ e, capacity (insertAtCursor t b) = 2 ^ e) ∧
    (content b).length + t.length ≤ capacity (insertAtCursor t b) ∧
    (∀ m, (content b).length + t.length ≤ 2 ^ m →
      capacity (insertAtCursor t b) ≤ 2 ^ m) ∧
    capacity b ≤ capacity (insertAtCursor s b) ∧
    capacity (deleteAll b) = capacity b ∧
    (∀ b', deleteAtCursor n b = some b' → capacity b' = capacity b) ∧
    capacity (moveCursor off b) = capacity b ∧
    (∀ b', moveCursorLeft n b = some b' → capacity b' = capacity b) ∧
    capacity (moveCursorRight n b) = capacity b ∧
    capacity (moveCursorToBeginning b) = capacity b ∧
    (∀ b', moveCursorToEnd b = some b' → capacity b' = capacity b) ∧
    capacity (moveCursorDown b) = capacity b := by
  have h' := h
  obtain ⟨hl0, hlr, hrr, hre⟩ := h'
  have hgs : gapSize b = b.rightStart - b.leftEnd := rfl
  have hcapb : capacity b = b.buffer.length := rfl
  have hcl : (content b).length = b.leftEnd + (b.rightEnd - b.rightStart) := by
    rw [content, List.length_append, length_leftView b h, length_rightView b h]
  have hcap : capacity (insertAtCursor t b) =
      nextPow2 ((content b).length + t.length) := by
    rw [insert_eq_grow t b hbig,
      writeStep_capacity t (grow t.length b) (grow_inv _ b h) (grow_gap _ b h hbig),
      grow_capacity _ b h]
    congr 1
    omega
  refine ⟨?_, hcap, ?_, ?_, ?_, insertAtCursor_capacity_le s b h, rfl,
    fun b' hm => deleteAtCursor_capacity n b b' hm,
    (moveCursor_spec off b h).2.1,
    fun b' hm => (moveCursorLeft_spec n b b' h hm).2,
    (moveCursorRight_spec n b h).2.1,
    (moveCursorToBeginning_spec b h).2.1,
    fun b' hm => (moveCursorToEnd_spec b b' h hm).2,
    (moveCursorDown_spec b h).2.1⟩
  · rw [content, insertAtCursor_left t b h, insertAtCursor_right t b h]
  · rw [hcap]; exact nextPow2_pow _
  · rw [hcap]; exact le_nextPow2 _
  · intro m hm
    rw [hcap]
    exact nextPow2_min hm

/-- Witness for C4: inserting five more digit bytes into `exBufC`
(content `"12345"`, gap 3) forces growth to capacity 16. -/
theorem claim4_witness :
    (Inv exBufC ∧ gapSize exBufC < ([54, 55, 56, 57, 58] : List Nat).length) ∧
    content (insertAtCursor [54, 55, 56, 57, 58] exBufC) =
      leftView exBufC ++ [54, 55, 56, 57, 58] ++ rightView exBufC ∧
    capacity (insertAtCursor [54, 55, 56, 57, 58] exBufC) =
      nextPow2 ((content exBufC).length + ([54, 55, 56, 57, 58] : List Nat).length) := by
  have hmain := claim4_growth_correctness exBufC [54, 55, 56, 57, 58] [54] 1
    (-1 : Int) (by decide) (by decide)
  exact ⟨⟨by decide, by decide⟩, hmain.1, hmain.2.1⟩

/-- C5: deletion and cursor moves requesting more grapheme clusters than
exist on the relevant side saturate exactly to the start (byte offset 0)
or to the end of the Right view — no error, no partial move. -/
theorem claim5_saturation (b : Buffer) (nl nr nd : Nat) (h : Inv b)
    (hl : (graphemeStarts (leftView b)).length < nl)
    (hr : (graphemeStarts (rightView b)).length < nr)
    (hd : (graphemeStarts (leftView b)).length < nd) :
    (∃ b', moveCursorLeft nl b = some b' ∧ b'.leftEnd = 0 ∧
      get b' = ([], content b)) ∧
    get (moveCursorRight nr b) = (content b, []) ∧
    (∃ b', deleteAtCursor nd b = some b' ∧ b'.leftEnd = 0 ∧
      get b' = ([], rightView b)) := by
  have h' := h
  obtain ⟨hl0, hlr, hrr, hre⟩ := h'
  refine ⟨?_, ?_, ?_⟩
  · have hnl0 : nl ≠ 0 := by omega
    have heq : nthBack (graphemeStarts (leftView b)) (nl - 1) = none :=
      nthBack_eq_none.mpr (by omega)
    have he : moveCursorLeftCore (nl - 1) b = moveCursorLeftTo 0 b := by
      simp [moveCursorLeftCore, heq]
    refine ⟨moveCursorLeftTo 0 b, by simp [moveCursorLeft, hnl0, he], ?_, ?_⟩
    · exact (moveCursorLeftTo_fields 0 b).2.1
    · rw [get, moveCursorLeftTo_left 0 b h (Nat.zero_le _), List.take_zero,
        moveCursorLeftTo_right 0 b h (Nat.zero_le _), content, leftView, hl0,
        slice_zero]
  · have heq : (graphemeStarts (rightView b)).get? nr = none :=
      List.get?_eq_none.mpr (by omega)
    rw [List.get?_eq_getElem?] at heq
    have he : moveCursorRight nr b = moveCursorRightTo b.rightEnd b := by
      simp [moveCursorRight, heq]
    rw [he, get, moveCursorRightTo_left b.rightEnd b h (by omega) (by omega),
      moveCursorRightTo_right b.rightEnd b h (by omega) (by omega), slice_same,
      content, rightView]
  · have hnd0 : nd ≠ 0 := by omega
    have heq : nthBack (graphemeStarts (leftView b)) (nd - 1) = none :=
      nthBack_eq_none.mpr (by omega)
    have he : deleteCore (nd - 1) b = { b with leftEnd := 0 } := by
      simp [deleteCore, heq]
    refine ⟨{ b with leftEnd := 0 }, by simp [deleteAtCursor, hnd0, he], rfl, ?_⟩
    have h1 : leftView { b with leftEnd := 0 } = [] := by
      show slice b.leftStart 0 b.buffer = []
      rw [hl0]
      exact slice_same 0 _
    rw [get, h1]
    rfl

/-- Witness for C5 at `exBufA` (four clusters in Left, none in Right). -/
theorem claim5_witness :
    (Inv exBufA ∧ (graphemeStarts (leftView exBufA)).length < 5 ∧
      (graphemeStarts (rightView exBufA)).length < 1 ∧
      (graphemeStarts (leftView exBufA)).length < 6) ∧
    ((∃ b', moveCursorLeft 5 exBufA = some b' ∧ b'.leftEnd = 0 ∧
      get b' = ([], content exBufA)) ∧
     get (moveCursorRight 1 exBufA) = (content exBufA, []) ∧
     (∃ b', deleteAtCursor 6 exBufA = some b' ∧ b'.leftEnd = 0 ∧
      get b' = ([], rightView exBufA))) :=
  ⟨⟨by decide, by decide, by decide, by decide⟩,
   claim5_saturation exBufA 5 1 6 (by decide) (by decide) (by decide) (by decide)⟩

/-- C8: cursor movement never splits a grapheme cluster across Left and
Right — after any successful `move_cursor_left` the Left/Right boundary
falls between whole clusters of the former Left view — and in particular
inserting `"Let's move the cursor 😎"` and calling `move_cursor(-1)`
yields `("Let's move the cursor ", "😎")`. -/
theorem claim8_grapheme_atomicity (b b' : Buffer) (n : Nat) (h : Inv b)
    (hm : moveCursorLeft n b = some b') :
    (∃ j, leftView b' = ((clusters (leftView b)).take j).flatten ∧
      rightView b' = ((clusters (leftView b)).drop j).flatten ++ rightView b) ∧
    get (moveCursor (-1) (insertAtCursor glyphStr (withInitialCapacity 64))) =
      (glyphLeft, glyphRight) := by
  constructor
  · unfold moveCursorLeft at hm
    by_cases hn : n = 0
    · rw [if_pos hn] at hm
      exact absurd hm (by simp)
    rw [if_neg hn] at hm
    have hb' : b' = moveCursorLeftCore (n - 1) b := (Option.some_inj.mp hm).symm
    subst hb'
    have hlv := length_leftView b h
    have h' := h
    obtain ⟨hl0, hlr, hrr, hre⟩ := h'
    set s := leftView b with hs
    cases heq : nthBack (graphemeStarts s) (n - 1) with
    | some i =>
      have hmem := nthBack_mem heq
      have hi_lt : i < s.length := mem_graphemeStarts_lt hmem
      have he : moveCursorLeftCore (n - 1) b = moveCursorLeftTo i b := by
        simp [moveCursorLeftCore, ← hs, heq]
      have hkl : n - 1 < (graphemeStarts s).length := by
        by_contra hc
        push_neg at hc
        rw [nthBack_eq_none.mpr hc] at heq
        exact absurd heq (by simp)
      rw [nthBack_eq_get? hkl] at heq
      set j := (graphemeStarts s).length - 1 - (n - 1) with hj
      have hjlt : j < (clusters s).length := by
        rw [← length_graphemeStarts]
        omega
      have hieq : i = sumLens ((clusters s).take j) := by
        have hg := graphemeStarts_get? hjlt
        rw [heq] at hg
        exact Option.some_inj.mp hg
      refine ⟨j, ?_, ?_⟩
      · rw [he, moveCursorLeftTo_left i b h (by omega)]
        have hft := flatten_take_sumLens (clusters s) j
        rw [clusters_flatten] at hft
        have hsb : s.take i = b.buffer.take i := by
          rw [hs, leftView, hl0, slice_zero, List.take_take,
            Nat.min_eq_left (by omega)]
        rw [← hsb, hieq]
        exact hft
      · rw [he, moveCursorLeftTo_right i b h (by omega)]
        congr 1
        have hfd := flatten_drop_sumLens (clusters s) j
        rw [clusters_flatten] at hfd
        have hsd : s.drop i = slice i b.leftEnd b.buffer := by
          rw [hs, leftView, hl0, slice_zero, List.drop_take]
          rfl
        rw [← hsd, hieq]
        exact hfd
    | none =>
      have he : moveCursorLeftCore (n - 1) b = moveCursorLeftTo 0 b := by
        simp [moveCursorLeftCore, ← hs, heq]
      refine ⟨0, ?_, ?_⟩
      · rw [he, moveCursorLeftTo_left 0 b h (Nat.zero_le _), List.take_zero]
        simp
      · rw [he, moveCursorLeftTo_right 0 b h (Nat.zero_le _)]
        congr 1
        rw [List.drop_zero, clusters_flatten, hs, leftView, hl0]
  · decide

/-- Witness for C8: a successful one-cluster move on `exBufA`. -/
theorem claim8_witness :
    (Inv exBufA ∧ moveCursorLeft 1 exBufA = some (moveCursorLeftCore 0 exBufA)) ∧
    ((∃ j, leftView (moveCursorLeftCore 0 exBufA) =
        ((clusters (leftView exBufA)).take j).flatten ∧
      rightView (moveCursorLeftCore 0 exBufA) =
        ((clusters (leftView exBufA)).drop j).flatten ++ rightView exBufA) ∧
     get (moveCursor (-1) (insertAtCursor glyphStr (withInitialCapacity 64))) =
      (glyphLeft, glyphRight)) :=
  ⟨⟨by decide, by decide⟩,
   claim8_grapheme_atomicity exBufA (moveCursorLeftCore 0 exBufA) 1
     (by decide) (by decide)⟩

/-- C9: `delete_at_cursor` and `move_cursor_left` compute `n - 1` on an
unsigned count, so `n = 0` is outside the domain under checked arithmetic
(the panic branch, modelled as `none`), and under 64-bit wrapping
arithmetic both saturate to byte offset 0: `delete_at_cursor(0)` erases the
whole Left view and `move_cursor_left(0)` moves the cursor to the
beginning. -/
theorem claim9_zero_count_underflow (b : Buffer) (h : Inv b)
    (hc : (graphemeStarts (leftView b)).length < 2 ^ 64) :
    deleteAtCursor 0 b = none ∧ moveCursorLeft 0 b = none ∧
    leftView (deleteAtCursorWrap 0 b) = [] ∧
    rightView (deleteAtCursorWrap 0 b) = rightView b ∧
    get (moveCursorLeftWrap 0 b) = ([], content b) := by
  have h' := h
  obtain ⟨hl0, hlr, hrr, hre⟩ := h'
  have h64 : (2 : Nat) ^ 64 = 18446744073709551616 := by norm_num
  have heqL : nthBack (graphemeStarts (leftView b)) 18446744073709551615 = none :=
    nthBack_eq_none.mpr (by omega)
  have hed : deleteAtCursorWrap 0 b = { b with leftEnd := 0 } := by
    simp [deleteAtCursorWrap, deleteCore, heqL]
  have hem : moveCursorLeftWrap 0 b = moveCursorLeftTo 0 b := by
    simp [moveCursorLeftWrap, moveCursorLeftCore, heqL]
  refine ⟨rfl, rfl, ?_, ?_, ?_⟩
  · rw [hed]
    show slice b.leftStart 0 b.buffer = []
    rw [hl0]
    exact slice_same 0 _
  · rw [hed]
    rfl
  · rw [hem, get, moveCursorLeftTo_left 0 b h (Nat.zero_le _), List.take_zero,
      moveCursorLeftTo_right 0 b h (Nat.zero_le _), content, leftView, hl0,
      slice_zero]

/-- Witness for C9 at `exBufA`. -/
theorem claim9_witness :
    (Inv exBufA ∧ (graphemeStarts (leftView exBufA)).length < 2 ^ 64) ∧
    (deleteAtCursor 0 exBufA = none ∧ moveCursorLeft 0 exBufA = none ∧
     leftView (deleteAtCursorWrap 0 exBufA) = [] ∧
     rightView (deleteAtCursorWrap 0 exBufA) = rightView exBufA ∧
     get (moveCursorLeftWrap 0 exBufA) = ([], content exBufA)) :=
  ⟨⟨by decide, by decide⟩,
   claim9_zero_count_underflow exBufA (by decide) (by decide)⟩

/-- C10: when the Right view contains no newline byte,
`move_cursor_down` returns early and the whole state — ranges, backing
bytes, and `get()` — is unchanged. -/
theorem claim10_down_no_newline_noop (b : Buffer) (h : (10 : Nat) ∉ rightView b) :
    moveCursorDown b = b ∧ get (moveCursorDown b) = get b ∧
    (moveCursorDown b).buffer = b.buffer := by
  have he : moveCursorDown b = b := by
    have hn := newlineOffsets_eq_nil h
    simp [moveCursorDown, hn]
  exact ⟨he, by rw [he], by rw [he]⟩

/-- Witness for C10 at `exBufB` (Right view `"ab"`, no newline). -/
theorem claim10_witness :
    ((10 : Nat) ∉ rightView exBufB) ∧
    (moveCursorDown exBufB = exBufB ∧ get (moveCursorDown exBufB) = get exBufB ∧
     (moveCursorDown exBufB).buffer = exBufB.buffer) :=
  ⟨by decide, claim10_down_no_newline_noop exBufB (by decide)⟩

/-- C6 counter-evidence: `move_cursor_to_end` targets
`right_string_range.end - 1`, one byte short of the end.  On a buffer
holding `"ab"` with the cursor at the beginning it leaves the last byte in
Right — `get() = ("a", "b")`, not `("ab", "")` — and on an empty Right
string its `copy_within` receives a reversed range and panics (`none`). -/
theorem claim6_moveCursorToEnd_off_by_one :
    (moveCursorToEnd exBufB).map get = some ([97], [98]) ∧
    moveCursorToEnd (withInitialCapacity 8) = none := by
  decide

/-- C2 counter-evidence: after `move_cursor_to_end` on a buffer holding
the two-byte code point `"é"` (0xC3 0xA9) with the cursor at the
beginning, `right.start` falls inside the code point: the Right view is
the lone continuation byte 0xA9, which is not valid UTF-8 (before the
call both views are valid). -/
theorem claim2_moveCursorToEnd_breaks_utf8 :
    utf8Valid (leftView (moveCursorToBeginning
      (insertAtCursor [195, 169] (withInitialCapacity 8)))) = true ∧
    utf8Valid (rightView (moveCursorToBeginning
      (insertAtCursor [195, 169] (withInitialCapacity 8)))) = true ∧
    (moveCursorToEnd (moveCursorToBeginning
      (insertAtCursor [195, 169] (withInitialCapacity 8)))).map
        (fun x => (rightView x, utf8Valid (rightView x))) = some ([169], false) := by
  decide

/-- C7 counter-evidence: with Left `"abc"` (three clusters) and Right
`"\nxy"`, the next line `"xy"` is shorter than the current column, and
`move_cursor_down` lands at the *start* of that line's last grapheme
cluster — `get() = ("abc\nx", "y")` — instead of at the line's end
`("abc\nxy", "")` as the claim states. -/
theorem claim7_moveCursorDown_clamp :
    get (moveCursor (-3) (insertAtCursor [97, 98, 99, 10, 120, 121]
      (withInitialCapacity 16))) = ([97, 98, 99], [10, 120, 121]) ∧
    get (moveCursorDown (moveCursor (-3) (insertAtCursor [97, 98, 99, 10, 120, 121]
      (withInitialCapacity 16)))) = ([97, 98, 99, 10, 120], [121]) := by
  decide

end Five
